import Mathlib

/-!
Shallow embedding of the Los-Banditos-Stock-Game price pipeline
(`src/fetch_prices.py`, the standalone variant, and
`src/scripts/fetch_prices.py`, the variant that also rewrites the
embedded PRICES block of `index.html`), together with proofs of the
spec-level properties.

Documents and patterns are modelled as `List Char`; Python `re.search` /
`re.sub(count=1)` on the anchored pattern `const PRICES = \{[\s\S]*?\n\};`
is modelled by an explicit leftmost-then-shortest search (`strFind`,
`findBlock`).  Monetary values are modelled as exact rationals; Python's
`round(x, 2)` (round-half-to-even) is modelled by `round2`.
-/

/-! ## Generic substring search

`strFind pat s` returns the index of the leftmost occurrence of `pat`
in `s`, the model of scanning a document for a fixed marker. -/

def strFind (pat : List Char) : List Char → Option Nat
  | [] => if pat.isPrefixOf ([] : List Char) then some 0 else none
  | c :: s => if pat.isPrefixOf (c :: s) then some 0 else (strFind pat s).map (· + 1)

theorem strFind_sound (pat : List Char) :
    ∀ (s : List Char) (i : Nat), strFind pat s = some i → pat <+: s.drop i := by
  intro s
  induction s with
  | nil =>
    intro i h
    rw [strFind] at h
    split at h
    · rename_i hp
      cases h
      exact List.isPrefixOf_iff_prefix.mp hp
    · cases h
  | cons c t ih =>
    intro i h
    rw [strFind] at h
    split at h
    · rename_i hp
      cases h
      exact List.isPrefixOf_iff_prefix.mp hp
    · rcases Option.map_eq_some'.mp h with ⟨j, hj, rfl⟩
      simpa using ih j hj

theorem strFind_min (pat : List Char) :
    ∀ (s : List Char) (i j : Nat), strFind pat s = some i → j < i → ¬ pat <+: s.drop j := by
  intro s
  induction s with
  | nil =>
    intro i j h hj
    rw [strFind] at h
    split at h
    · cases h; omega
    · cases h
  | cons c t ih =>
    intro i j h hj
    rw [strFind] at h
    split at h
    · cases h; omega
    · rcases Option.map_eq_some'.mp h with ⟨i0, hi0, rfl⟩
      rename_i hp
      cases j with
      | zero =>
        intro hcontra
        exact hp (List.isPrefixOf_iff_prefix.mpr (by simpa using hcontra))
      | succ j0 =>
        have := ih i0 j0 hi0 (by omega)
        simpa using this

theorem strFind_none (pat : List Char) :
    ∀ (s : List Char) (j : Nat), strFind pat s = none → ¬ pat <+: s.drop j := by
  intro s
  induction s with
  | nil =>
    intro j h
    rw [strFind] at h
    split at h
    · cases h
    · rename_i hp
      intro hcontra
      exact hp (List.isPrefixOf_iff_prefix.mpr (by simpa using hcontra))
  | cons c t ih =>
    intro j h
    rw [strFind] at h
    split at h
    · cases h
    · rename_i hp
      have ht : strFind pat t = none := by
        cases hfind : strFind pat t with
        | none => rfl
        | some v => rw [hfind] at h; cases h
      cases j with
      | zero =>
        intro hcontra
        exact hp (List.isPrefixOf_iff_prefix.mpr (by simpa using hcontra))
      | succ j0 =>
        simpa using ih j0 ht

theorem strFind_isSome (pat s : List Char) (j : Nat) (h : pat <+: s.drop j) :
    (strFind pat s).isSome := by
  cases hfind : strFind pat s with
  | none => exact absurd h (strFind_none pat s j hfind)
  | some i => rfl

theorem strFind_bound (pat : List Char) :
    ∀ (s : List Char) (i : Nat), strFind pat s = some i → i + pat.length ≤ s.length := by
  intro s
  induction s with
  | nil =>
    intro i h
    rw [strFind] at h
    split at h
    · rename_i hp
      cases h
      simpa using (List.isPrefixOf_iff_prefix.mp hp).length_le
    · cases h
  | cons c t ih =>
    intro i h
    rw [strFind] at h
    split at h
    · rename_i hp
      cases h
      simpa using (List.isPrefixOf_iff_prefix.mp hp).length_le
    · rcases Option.map_eq_some'.mp h with ⟨j, hj, rfl⟩
      have := ih j hj
      simp only [List.length_cons]
      omega

theorem prefix_of_prefix_append (pat a b : List Char) (h : pat <+: a ++ b)
    (hl : pat.length ≤ a.length) : pat <+: a := by
  have heq : pat = (a ++ b).take pat.length := List.prefix_iff_eq_take.mp h
  have h2 : (a ++ b).take pat.length = a.take pat.length := by
    rw [List.take_append_eq_append_take]
    have h0 : pat.length - a.length = 0 := by omega
    simp [h0]
  rw [heq, h2]
  exact List.take_prefix _ _

theorem prefix_cancel_left (l r₁ r₂ : List Char) (h : l ++ r₁ <+: l ++ r₂) : r₁ <+: r₂ := by
  rcases h with ⟨t, ht⟩
  rw [List.append_assoc] at ht
  exact ⟨t, List.append_cancel_left ht⟩

/-- Unbordered patterns: no nonempty proper suffix of the pattern is also a
prefix of it.  Both markers of the PRICES block are unbordered, which is what
makes occurrences of a marker in a spliced document easy to locate. -/
def Unbordered (pat : List Char) : Prop :=
  ∀ k, k < pat.length → 0 < k → (pat.drop k).isPrefixOf pat = false

theorem strFind_take_none (pat s : List Char) (i : Nat) (hne : pat ≠ [])
    (h : strFind pat s = some i) : strFind pat (s.take i) = none := by
  cases hfind : strFind pat (s.take i) with
  | none => rfl
  | some j =>
    exfalso
    have hsound := strFind_sound pat (s.take i) j hfind
    have hb := strFind_bound pat (s.take i) j hfind
    have hli : (s.take i).length ≤ i := by simp [List.length_take]
    have hlen : 0 < pat.length := List.length_pos.mpr hne
    have hji : j < i := by omega
    have : pat <+: s.drop j := by
      have h1 : (s.take i).drop j = (s.drop j).take (i - j) := List.drop_take i j s
      rw [h1] at hsound
      exact hsound.trans (List.take_prefix _ _)
    exact strFind_min pat s i j h hji this

theorem strFind_zero (pat s : List Char) (h : pat <+: s) : strFind pat s = some 0 := by
  cases s with
  | nil => rw [strFind]; simp [List.isPrefixOf_iff_prefix.mpr h]
  | cons c t => rw [strFind]; simp [List.isPrefixOf_iff_prefix.mpr h]

theorem strFind_take_eq (pat : List Char) :
    ∀ (s : List Char) (i : Nat), strFind pat s = some i →
      strFind pat (s.take (i + pat.length)) = some i := by
  intro s
  induction s with
  | nil =>
    intro i h
    simpa using h
  | cons c t ih =>
    intro i h
    rw [strFind] at h
    split at h
    · rename_i hp
      cases h
      have hp' : pat <+: c :: t := List.isPrefixOf_iff_prefix.mp hp
      have htk : pat <+: (c :: t).take (0 + pat.length) := by
        rw [List.prefix_iff_eq_take] at hp' ⊢
        rw [List.take_take]
        simpa using hp'
      exact strFind_zero pat _ htk
    · rcases Option.map_eq_some'.mp h with ⟨j, hj, rfl⟩
      rename_i hp
      have hrec := ih j hj
      have hstep : (c :: t).take (j + 1 + pat.length) = c :: t.take (j + pat.length) := by
        have harith : j + 1 + pat.length = (j + pat.length) + 1 := by omega
        rw [harith]
        rfl
      rw [hstep]
      simp only [strFind]
      split
      · rename_i hcontra
        exfalso
        have hpre : pat <+: c :: t := by
          refine (List.isPrefixOf_iff_prefix.mp hcontra).trans ?_
          exact List.cons_prefix_cons.mpr ⟨rfl, List.take_prefix _ _⟩
        exact hp (List.isPrefixOf_iff_prefix.mpr hpre)
      · rw [hrec]
        rfl

theorem strFind_spliced (pat : List Char) (hub : Unbordered pat) :
    ∀ (u w : List Char), strFind pat u = none →
      strFind pat (u ++ (pat ++ w)) = some u.length := by
  intro u
  induction u with
  | nil =>
    intro w _
    simpa using strFind_zero pat (pat ++ w) (List.prefix_append pat w)
  | cons c u' ih =>
    intro w hu
    rw [strFind] at hu
    split at hu
    · cases hu
    · rename_i hp
      have hu' : strFind pat u' = none := by
        cases hfind : strFind pat u' with
        | none => rfl
        | some v => rw [hfind] at hu; cases hu
      have hrest := ih w hu'
      have hnotpre : ¬ pat <+: c :: (u' ++ (pat ++ w)) := by
        intro hyp
        by_cases hlen : pat.length ≤ u'.length + 1
        · have : pat <+: c :: u' := by
            have hshape : c :: (u' ++ (pat ++ w)) = (c :: u') ++ (pat ++ w) := rfl
            rw [hshape] at hyp
            exact prefix_of_prefix_append pat (c :: u') (pat ++ w) hyp (by simpa using hlen)
          exact hp (List.isPrefixOf_iff_prefix.mpr this)
        · push_neg at hlen
          have hcu : (c :: u') <+: (c :: u') ++ (pat ++ w) := List.prefix_append _ _
          have hshape : c :: (u' ++ (pat ++ w)) = (c :: u') ++ (pat ++ w) := rfl
          rw [hshape] at hyp
          have hcupat : (c :: u') <+: pat :=
            List.prefix_of_prefix_length_le hcu hyp (by simpa using Nat.le_of_lt hlen)
          have hsplit : pat = (c :: u') ++ pat.drop (u'.length + 1) := by
            have h1 : c :: u' = pat.take (u'.length + 1) := by
              have := List.prefix_iff_eq_take.mp hcupat
              simpa using this
            calc pat = pat.take (u'.length + 1) ++ pat.drop (u'.length + 1) :=
                  (List.take_append_drop _ _).symm
              _ = (c :: u') ++ pat.drop (u'.length + 1) := by rw [← h1]
          have hr : pat.drop (u'.length + 1) <+: pat ++ w := by
            apply prefix_cancel_left (c :: u')
            calc (c :: u') ++ pat.drop (u'.length + 1) = pat := hsplit.symm
              _ <+: (c :: u') ++ (pat ++ w) := hyp
          have hrpat : pat.drop (u'.length + 1) <+: pat := by
            apply prefix_of_prefix_append _ pat w hr
            simp
          have hfalse := hub (u'.length + 1) hlen (by omega)
          have h1 := List.isPrefixOf_iff_prefix.mpr hrpat
          simp [hfalse] at h1
      have hshape : (c :: u') ++ (pat ++ w) = c :: (u' ++ (pat ++ w)) := rfl
      rw [hshape, strFind]
      split
      · rename_i hcontra
        exact absurd (List.isPrefixOf_iff_prefix.mp hcontra) hnotpre
      · rw [hrest]
        rfl

/-! ## Publisher: the embedded PRICES block of `index.html`

Embedding of `update_index_html` from `src/scripts/fetch_prices.py`
(lines 64-93).  The opening marker is the literal `const PRICES = {` of the
regex `const PRICES = \{[\s\S]*?\n\};`, the closing marker the literal
`\n};`; the non-greedy regex match is: leftmost occurrence of the opening
marker, then the first occurrence of the closing marker after it. -/

def OPENpat : List Char := "const PRICES = \x7b".toList

def CLOSEpat : List Char := "\n\x7d;".toList

/-- One stocks-mapping entry as it is interpolated into the generated block.
The fields hold the exact text that the Python f-strings interpolate:
`p0` and `p1` the `str()` renderings of `sd["p0"]` and
`sd.get("p1", sd["p0"])`, `currency` the currency string, and `daily` the
output of `json.dumps(sd.get("daily", {}), separators=(",", ":"))`
(which never contains a newline). -/
structure RenderEntry where
  p0 : String
  p1 : String
  currency : String
  daily : String

/-- The four lines appended per ticker (source lines 78-81). -/
def entryLines (ticker : String) (sd : RenderEntry) : List String :=
  ["  \"" ++ ticker ++ "\": \x7b",
   "    \"p0\": " ++ sd.p0 ++ ", \"p1\": " ++ sd.p1 ++ ", \"currency\": \"" ++ sd.currency ++ "\",",
   "    \"daily\": " ++ sd.daily,
   "  \x7d,"]

/-- The full list of lines of the regenerated block (source lines 75-82). -/
def renderLines (stocks : List (String × RenderEntry)) : List String :=
  ["const PRICES = \x7b"] ++ (stocks.flatMap fun p => entryLines p.1 p.2) ++ ["\x7d;"]

/-- `"\n".join(lines)` on `List Char` lines. -/
def joinNL : List (List Char) → List Char
  | [] => []
  | [l] => l
  | l :: l2 :: ls => l ++ '\n' :: joinNL (l2 :: ls)

/-- `new_prices` of the source (line 83): the block text that replaces the
matched span. -/
def renderBlock (stocks : List (String × RenderEntry)) : List Char :=
  joinNL ((renderLines stocks).map String.toList)

theorem joinNL_append_single :
    ∀ (xs : List (List Char)) (l : List Char),
      joinNL (xs ++ [l]) = if xs.isEmpty then l else joinNL xs ++ '\n' :: l := by
  intro xs
  induction xs with
  | nil => intro l; simp [joinNL]
  | cons a xs' ih =>
    intro l
    cases xs' with
    | nil => simp [joinNL]
    | cons b xs'' =>
      have hih := ih l
      rw [if_neg (by simp)] at hih
      rw [if_neg (by simp)]
      simp only [List.cons_append] at hih ⊢
      rw [joinNL, joinNL]
      rw [hih]
      simp [List.append_assoc]

/-- The regenerated block always starts with the opening marker and ends with
the closing marker: its first line is `const PRICES = {` and its last line
is `};`, joined by newlines. -/
theorem renderBlock_shape (stocks : List (String × RenderEntry)) :
    ∃ body, renderBlock stocks = OPENpat ++ (body ++ CLOSEpat) := by
  unfold renderBlock renderLines
  cases hmid : (stocks.flatMap fun p => entryLines p.1 p.2) with
  | nil =>
    refine ⟨[], ?_⟩
    simp [joinNL, OPENpat, CLOSEpat]
  | cons m ms =>
    refine ⟨'\n' :: joinNL ((m :: ms).map String.toList), ?_⟩
    have h1 : ((["const PRICES = \x7b"] ++ (m :: ms) ++ ["\x7d;"]).map String.toList)
        = "const PRICES = \x7b".toList :: (((m :: ms).map String.toList) ++ ["\x7d;".toList]) := by
      simp
    rw [h1]
    have h2 : joinNL ("const PRICES = \x7b".toList ::
        (((m :: ms).map String.toList) ++ ["\x7d;".toList]))
        = "const PRICES = \x7b".toList ++ '\n' ::
          joinNL (((m :: ms).map String.toList) ++ ["\x7d;".toList]) := by
      cases hmm : ((m :: ms).map String.toList) ++ ["\x7d;".toList] with
      | nil => simp at hmm
      | cons q qs => rw [joinNL]
    rw [h2, joinNL_append_single]
    have h3 : (((m :: ms).map String.toList) : List (List Char)).isEmpty = false := rfl
    simp only [h3, if_false, OPENpat, CLOSEpat]
    simp

theorem OPENpat_unbordered : Unbordered OPENpat := by
  unfold Unbordered
  decide

theorem CLOSEpat_unbordered : Unbordered CLOSEpat := by
  unfold Unbordered
  decide

theorem OPENpat_ne_nil : OPENpat ≠ [] := by decide

theorem CLOSEpat_ne_nil : CLOSEpat ≠ [] := by decide

/-- Model of `re.search(pattern, html)` / `re.sub(pattern, ..., count=1)` for the
pattern `const PRICES = \{[\s\S]*?\n\};` (source line 86): the leftmost
occurrence of the opening marker, then — non-greedy — the first occurrence of
the closing marker after it.  Returns the half-open span `[s, e)` of the match.
A leftmost regex match starts at the first occurrence of the opening literal
whenever any match exists, because a closing occurrence after a later opening
is also after the first one. -/
def findBlock (html : List Char) : Option (Nat × Nat) :=
  (strFind OPENpat html).bind fun s =>
    (strFind CLOSEpat (html.drop (s + OPENpat.length))).map fun d =>
      (s, s + OPENpat.length + d + CLOSEpat.length)

/-- `update_index_html` of `src/scripts/fetch_prices.py` (lines 64-93), as a
function from the optional current content of `index.html` (`none` models a
missing file, line 70's `FileNotFoundError`) to the optional new content
(`none` means the file is not written) and a flag telling whether a WARNING
diagnostic was printed.  This version splices the rendered block in
literally; `re.sub` additionally processes replacement-template escapes in
the rendered block, which `update_index_html_re` below models in full.  The
two agree exactly when the rendered block contains no backslash
(`update_index_html_re_eq`). -/
def update_index_html (stocks : List (String × RenderEntry)) :
    Option (List Char) → Option (List Char) × Bool
  | none => (none, true)
  | some html =>
    match findBlock html with
    | none => (none, true)
    | some se => (some (html.take se.1 ++ renderBlock stocks ++ html.drop se.2), false)

def isOct (c : Char) : Bool := 48 ≤ c.toNat && c.toNat ≤ 55

def isDig (c : Char) : Bool := 48 ≤ c.toNat && c.toNat ≤ 57

def isAsciiLetter (c : Char) : Bool :=
  (65 ≤ c.toNat && c.toNat ≤ 90) || (97 ≤ c.toNat && c.toNat ≤ 122)

def octVal (c : Char) : Nat := c.toNat - 48

/-- Scanner state for `re.sub` replacement-template processing: past a
backslash (`esc`), past `\g` (`g0`), inside a `\g<...>` name (`group seen ok`
tracks a non-empty all-zeros name, the only group of this pattern), past `\0`
(octal escape, `oct0`/`oct1 v`), or past a nonzero octal digit that may start
a three-digit octal escape (`octB`/`octC`). -/
inductive TplMode where
  | normal
  | esc
  | g0
  | group (seen ok : Bool)
  | oct0
  | oct1 (v : Nat)
  | octB (d1 : Nat)
  | octC (d1 d2 : Nat)

/-- CPython's `re` replacement-template expansion (`re._parser.parse_template`
as exercised by `re.sub` at source line 88), specialised to this program's
pattern, which has no capture groups beyond group 0: `\\` is a backslash;
`\g<digits>` is a group reference — group 0 is the whole match `whole`, any
other number or name raises; `\a \b \f \n \r \t \v` are control
characters; an escape whose first digit is 0, or which has three octal
digits, is an octal escape (value above 255 raises), while any other digit
escape is a group reference and raises; a backslash before any other ASCII
letter raises ("bad escape"), before a non-letter it is kept verbatim, and a
trailing backslash raises.  `none` models the raised `re.error`. -/
def expandT (whole : List Char) : TplMode → List Char → Option (List Char)
  | .normal, [] => some []
  | .normal, c :: r =>
    if c = '\\' then expandT whole .esc r
    else (expandT whole .normal r).map (c :: ·)
  | .esc, [] => none
  | .esc, c :: r =>
    if c = '\\' then (expandT whole .normal r).map ('\\' :: ·)
    else if c = 'g' then expandT whole .g0 r
    else if c = 'a' then (expandT whole .normal r).map (Char.ofNat 7 :: ·)
    else if c = 'b' then (expandT whole .normal r).map (Char.ofNat 8 :: ·)
    else if c = 'f' then (expandT whole .normal r).map (Char.ofNat 12 :: ·)
    else if c = 'n' then (expandT whole .normal r).map ('\n' :: ·)
    else if c = 'r' then (expandT whole .normal r).map (Char.ofNat 13 :: ·)
    else if c = 't' then (expandT whole .normal r).map ('\t' :: ·)
    else if c = 'v' then (expandT whole .normal r).map (Char.ofNat 11 :: ·)
    else if c = '0' then expandT whole .oct0 r
    else if isDig c then
      if isOct c then expandT whole (.octB (octVal c)) r else none
    else if isAsciiLetter c then none
    else (expandT whole .normal r).map (fun t => '\\' :: c :: t)
  | .g0, [] => none
  | .g0, c :: r => if c = '<' then expandT whole (.group false true) r else none
  | .group _ _, [] => none
  | .group seen ok, c :: r =>
    if c = '>' then
      if seen && ok then (expandT whole .normal r).map (whole ++ ·) else none
    else expandT whole (.group true (ok && decide (c = '0'))) r
  | .oct0, [] => some [Char.ofNat 0]
  | .oct0, c :: r =>
    if isOct c then expandT whole (.oct1 (octVal c)) r
    else if c = '\\' then (expandT whole .esc r).map (Char.ofNat 0 :: ·)
    else (expandT whole .normal r).map (fun t => Char.ofNat 0 :: c :: t)
  | .oct1 v, [] => some [Char.ofNat v]
  | .oct1 v, c :: r =>
    if isOct c then (expandT whole .normal r).map (Char.ofNat (8 * v + octVal c) :: ·)
    else if c = '\\' then (expandT whole .esc r).map (Char.ofNat v :: ·)
    else (expandT whole .normal r).map (fun t => Char.ofNat v :: c :: t)
  | .octB _, [] => none
  | .octB d1, c :: r =>
    if isOct c then expandT whole (.octC d1 (octVal c)) r else none
  | .octC _ _, [] => none
  | .octC d1 d2, c :: r =>
    if isOct c then
      if 64 * d1 + 8 * d2 + octVal c ≤ 255 then
        (expandT whole .normal r).map (Char.ofNat (64 * d1 + 8 * d2 + octVal c) :: ·)
      else none
    else none

/-- `re.sub`'s expansion of the replacement template `tpl` against a match
whose group 0 is `whole`; `none` models a raised `re.error`. -/
def expandTemplate (whole tpl : List Char) : Option (List Char) :=
  expandT whole .normal tpl

/-- A backslash-free template expands to itself: on such templates `re.sub`
is a literal splice. -/
theorem expandT_no_backslash (whole : List Char) :
    ∀ tpl : List Char, '\\' ∉ tpl → expandT whole TplMode.normal tpl = some tpl := by
  intro tpl
  induction tpl with
  | nil => intro _; rfl
  | cons c rest ih =>
    intro h
    simp only [List.mem_cons, not_or] at h
    obtain ⟨hc, hrest⟩ := h
    rw [expandT, if_neg (fun he => hc he.symm)]
    rw [ih hrest]
    rfl

/-- `update_index_html` with `re.sub`'s replacement-template processing
included (source lines 86-90): when the pattern matches, the matched span is
replaced by the template expansion of the rendered block against that match.
The outer `none` models `re.sub` raising on a malformed template, which would
propagate out of `update_index_html` uncaught; otherwise the result is the
written-file outcome and warning flag as in `update_index_html`. -/
def update_index_html_re (stocks : List (String × RenderEntry)) :
    Option (List Char) → Option (Option (List Char) × Bool)
  | none => some (none, true)
  | some html =>
    match findBlock html with
    | none => some (none, true)
    | some se =>
      match expandTemplate ((html.drop se.1).take (se.2 - se.1)) (renderBlock stocks) with
      | none => none
      | some rep => some (some (html.take se.1 ++ rep ++ html.drop se.2), false)

/-- On a backslash-free rendered block the faithful substitution agrees with
the literal splice, for every state of the HTML file. -/
theorem update_index_html_re_eq (stocks : List (String × RenderEntry))
    (htmlFile : Option (List Char)) (hnb : '\\' ∉ renderBlock stocks) :
    update_index_html_re stocks htmlFile = some (update_index_html stocks htmlFile) := by
  cases htmlFile with
  | none => rfl
  | some html =>
    cases hfb : findBlock html with
    | none => simp only [update_index_html_re, update_index_html, hfb]
    | some se =>
      simp only [update_index_html_re, update_index_html, hfb]
      rw [show expandTemplate ((html.drop se.1).take (se.2 - se.1)) (renderBlock stocks)
          = some (renderBlock stocks) from expandT_no_backslash _ _ hnb]

theorem findBlock_eq_some (html : List Char) (s e : Nat) :
    findBlock html = some (s, e) ↔
      strFind OPENpat html = some s ∧
      ∃ d, strFind CLOSEpat (html.drop (s + OPENpat.length)) = some d ∧
        e = s + OPENpat.length + d + CLOSEpat.length := by
  constructor
  · intro h
    unfold findBlock at h
    cases h1 : strFind OPENpat html with
    | none => rw [h1] at h; cases h
    | some s0 =>
      rw [h1] at h
      simp only [Option.some_bind] at h
      cases h2 : strFind CLOSEpat (html.drop (s0 + OPENpat.length)) with
      | none => rw [h2] at h; cases h
      | some d0 =>
        rw [h2] at h
        simp only [Option.map_some'] at h
        have hpair := Option.some.inj h
        have hs : s0 = s := congrArg Prod.fst hpair
        have he : s0 + OPENpat.length + d0 + CLOSEpat.length = e := congrArg Prod.snd hpair
        subst hs
        exact ⟨rfl, d0, h2, he.symm⟩
  · rintro ⟨h1, d, h2, rfl⟩
    unfold findBlock
    rw [h1]
    simp only [Option.some_bind]
    rw [h2]
    rfl

/-- Full characterisation of a found PRICES-block match: the document splits as
`pre ++ mid ++ post` where `mid` is the matched span — it starts with the
opening marker, ends with the closing marker, the closing marker's first
occurrence inside `mid` past the opening marker is the final one (non-greedy),
and `pre` holds no occurrence of the opening marker (leftmost). -/
theorem findBlock_decomp (html : List Char) (s e : Nat)
    (h : findBlock html = some (s, e)) :
    ∃ pre mid post,
      html = pre ++ mid ++ post ∧
      pre = html.take s ∧ pre.length = s ∧
      post = html.drop e ∧ mid.length = e - s ∧ e ≤ html.length ∧
      OPENpat <+: mid ∧
      strFind OPENpat pre = none ∧
      strFind CLOSEpat (mid.drop OPENpat.length)
        = some (mid.length - (OPENpat.length + CLOSEpat.length)) ∧
      mid.drop (mid.length - CLOSEpat.length) = CLOSEpat := by
  rcases (findBlock_eq_some html s e).mp h with ⟨h1, d, h2, rfl⟩
  have hsb := strFind_bound _ _ _ h1
  have hdb := strFind_bound _ _ _ h2
  rw [List.length_drop] at hdb
  have hOl : OPENpat.length = 16 := by decide
  have hCl : CLOSEpat.length = 3 := by decide
  set e := s + OPENpat.length + d + CLOSEpat.length with he
  have heb : e ≤ html.length := by omega
  have hsplit2 : html.drop s = (html.drop s).take (e - s) ++ html.drop e := by
    have h3 : ((html.drop s).drop (e - s)) = html.drop e := by
      rw [List.drop_drop]
      congr 1
      omega
    conv_lhs => rw [← List.take_append_drop (e - s) (html.drop s)]
    rw [h3]
  refine ⟨html.take s, (html.drop s).take (e - s), html.drop e, ?_, rfl, ?_, rfl, ?_, heb, ?_, ?_, ?_, ?_⟩
  · rw [List.append_assoc, ← hsplit2, List.take_append_drop]
  · rw [List.length_take]
    omega
  · rw [List.length_take, List.length_drop]
    omega
  · have hpre := strFind_sound _ _ _ h1
    have heq : OPENpat = (html.drop s).take OPENpat.length := List.prefix_iff_eq_take.mp hpre
    rw [List.prefix_iff_eq_take]
    rw [List.take_take]
    have hmin : min OPENpat.length (e - s) = OPENpat.length := by omega
    rw [hmin, ← heq]
  · exact strFind_take_none _ _ _ OPENpat_ne_nil h1
  · have hlen : ((html.drop s).take (e - s)).length = e - s := by
      rw [List.length_take, List.length_drop]
      omega
    rw [hlen]
    have hd1 : ((html.drop s).take (e - s)).drop OPENpat.length
        = (html.drop (s + OPENpat.length)).take (d + CLOSEpat.length) := by
      rw [List.drop_take (e - s) OPENpat.length (html.drop s), List.drop_drop]
      have hm1 : e - s - OPENpat.length = d + CLOSEpat.length := by omega
      rw [hm1]
    have harith : e - s - (OPENpat.length + CLOSEpat.length) = d := by omega
    rw [hd1, harith]
    exact strFind_take_eq CLOSEpat (html.drop (s + OPENpat.length)) d h2
  · have hlen : ((html.drop s).take (e - s)).length = e - s := by
      rw [List.length_take, List.length_drop]
      omega
    rw [hlen]
    have hsound := strFind_sound _ _ _ h2
    have hd2 : ((html.drop s).take (e - s)).drop (e - s - CLOSEpat.length)
        = ((html.drop (s + OPENpat.length)).drop d).take CLOSEpat.length := by
      rw [List.drop_take (e - s) (e - s - CLOSEpat.length) (html.drop s),
        List.drop_drop, List.drop_drop]
      have hm1 : (e - s) - (e - s - CLOSEpat.length) = CLOSEpat.length := by omega
      have hm2 : s + (e - s - CLOSEpat.length) = s + OPENpat.length + d := by omega
      rw [hm1, hm2]
    rw [hd2]
    exact (List.prefix_iff_eq_take.mp hsound).symm

theorem clean_body (body : List Char)
    (h : strFind CLOSEpat (body ++ CLOSEpat) = some body.length) :
    strFind CLOSEpat body = none := by
  cases hfind : strFind CLOSEpat body with
  | none => rfl
  | some j =>
    exfalso
    have hb := strFind_bound _ _ _ hfind
    have hCl : CLOSEpat.length = 3 := by decide
    have hj : j < body.length := by omega
    have hsound := strFind_sound _ _ _ hfind
    have hext : CLOSEpat <+: (body ++ CLOSEpat).drop j := by
      rw [List.drop_append_eq_append_drop]
      have h0 : j - body.length = 0 := by omega
      rw [h0]
      simp only [List.drop_zero]
      exact hsound.trans (List.prefix_append _ _)
    exact strFind_min _ _ _ _ h hj hext

theorem renderBlock_clean_body (stocks : List (String × RenderEntry)) (body : List Char)
    (hB : renderBlock stocks = OPENpat ++ (body ++ CLOSEpat))
    (hclean : strFind CLOSEpat ((renderBlock stocks).drop OPENpat.length)
      = some ((renderBlock stocks).length - (OPENpat.length + CLOSEpat.length))) :
    strFind CLOSEpat (body ++ CLOSEpat) = some body.length := by
  rw [hB, List.drop_left] at hclean
  have hlen : (OPENpat ++ (body ++ CLOSEpat)).length - (OPENpat.length + CLOSEpat.length)
      = body.length := by
    simp only [List.length_append]
    omega
  rwa [hlen] at hclean

/-- Idempotence of the literal-splice substitution: whenever the rendered
block contains the closing marker `\n};` only as its final three characters,
the first application's output is a fixed point. -/
theorem update_splice_idempotent (stocks : List (String × RenderEntry)) (html out : List Char)
    (hclean : strFind CLOSEpat ((renderBlock stocks).drop OPENpat.length)
      = some ((renderBlock stocks).length - (OPENpat.length + CLOSEpat.length)))
    (h : update_index_html stocks (some html) = (some out, false)) :
    update_index_html stocks (some out) = (some out, false) := by
  obtain ⟨body, hB⟩ := renderBlock_shape stocks
  have hbody : strFind CLOSEpat body = none :=
    clean_body body (renderBlock_clean_body stocks body hB hclean)
  simp only [update_index_html] at h
  cases hfb : findBlock html with
  | none => rw [hfb] at h; simp at h
  | some se =>
    obtain ⟨s, e⟩ := se
    rw [hfb] at h
    simp only [Prod.mk.injEq, Option.some.injEq] at h
    obtain ⟨hout, -⟩ := h
    rcases (findBlock_eq_some html s e).mp hfb with ⟨h1, d, h2, he⟩
    have hsb := strFind_bound _ _ _ h1
    have hpre_len : (html.take s).length = s := by
      rw [List.length_take]
      omega
    have hpre_none : strFind OPENpat (html.take s) = none :=
      strFind_take_none _ _ _ OPENpat_ne_nil h1
    set pre := html.take s with hpre
    set post := html.drop e with hpost
    have houtshape : out = pre ++ ((OPENpat ++ (body ++ CLOSEpat)) ++ post) := by
      rw [← hout, hB]
      simp [List.append_assoc]
    have hfind1 : strFind OPENpat out = some pre.length := by
      rw [houtshape]
      have hassoc : (OPENpat ++ (body ++ CLOSEpat)) ++ post
          = OPENpat ++ ((body ++ CLOSEpat) ++ post) := by
        rw [List.append_assoc]
      rw [hassoc]
      exact strFind_spliced OPENpat OPENpat_unbordered pre _ hpre_none
    have hdrop : out.drop (pre.length + OPENpat.length) = body ++ (CLOSEpat ++ post) := by
      rw [houtshape]
      have hassoc2 : pre ++ ((OPENpat ++ (body ++ CLOSEpat)) ++ post)
          = (pre ++ OPENpat) ++ (body ++ (CLOSEpat ++ post)) := by
        simp [List.append_assoc]
      rw [hassoc2]
      have hlen2 : pre.length + OPENpat.length = (pre ++ OPENpat).length := by
        rw [List.length_append]
      rw [hlen2, List.drop_left]
    have hfind2 : strFind CLOSEpat (out.drop (pre.length + OPENpat.length))
        = some body.length := by
      rw [hdrop]
      exact strFind_spliced CLOSEpat CLOSEpat_unbordered body post hbody
    have hfbout : findBlock out
        = some (pre.length, pre.length + OPENpat.length + body.length + CLOSEpat.length) :=
      (findBlock_eq_some out pre.length _).mpr ⟨hfind1, body.length, hfind2, rfl⟩
    simp only [update_index_html, hfbout]
    have htake : out.take pre.length = pre := by
      rw [houtshape, List.take_left]
    have hdrop2 : out.drop (pre.length + OPENpat.length + body.length + CLOSEpat.length)
        = post := by
      have hshape2 : out = (pre ++ (OPENpat ++ (body ++ CLOSEpat))) ++ post := by
        rw [houtshape]
        simp [List.append_assoc]
      rw [hshape2]
      have hlen3 : pre.length + OPENpat.length + body.length + CLOSEpat.length
          = (pre ++ (OPENpat ++ (body ++ CLOSEpat))).length := by
        simp only [List.length_append]
        omega
      rw [hlen3, List.drop_left]
    rw [htake, hdrop2, hB, houtshape]
    simp [List.append_assoc]

/-- C1 (amended): the Publisher — `re.sub` with its replacement-template
processing — is idempotent on every document in which the PRICES block
pattern matches, for every stocks mapping whose rendered block contains no
backslash and contains the closing marker `\n};` only as its final three
characters (both true of the program's own numeric data): the first
application's output is a fixed point of the operation.  A block carrying a
backslash can expand differently (e.g. `\g<0>` re-embeds the old match) or
raise, and a block with an interior `\n};` re-matches short — see the
counterexample. -/
theorem publisher_idempotent (stocks : List (String × RenderEntry)) (html out : List Char)
    (hnb : '\\' ∉ renderBlock stocks)
    (hclean : strFind CLOSEpat ((renderBlock stocks).drop OPENpat.length)
      = some ((renderBlock stocks).length - (OPENpat.length + CLOSEpat.length)))
    (h : update_index_html_re stocks (some html) = some (some out, false)) :
    update_index_html_re stocks (some out) = some (some out, false) := by
  rw [update_index_html_re_eq stocks (some html) hnb] at h
  rw [update_index_html_re_eq stocks (some out) hnb]
  exact congrArg some (update_splice_idempotent stocks html out hclean (Option.some.inj h))

/-- C2: the Publisher replaces only the matched span.  Whenever the PRICES
block pattern matches, the document splits as `pre ++ mid ++ post` with `mid`
the matched span (starting with the opening marker, ending with the first
closing marker after it — non-greedy — and with no earlier opening marker in
`pre`), and the output is exactly `pre ++ renderBlock stocks ++ post`: every
byte outside the span is unchanged. -/
theorem publisher_localized (stocks : List (String × RenderEntry)) (html out : List Char)
    (h : update_index_html stocks (some html) = (some out, false)) :
    ∃ pre mid post,
      html = pre ++ mid ++ post ∧
      out = pre ++ renderBlock stocks ++ post ∧
      OPENpat <+: mid ∧ CLOSEpat <:+ mid ∧
      strFind OPENpat pre = none ∧
      strFind CLOSEpat (mid.drop OPENpat.length)
        = some (mid.length - (OPENpat.length + CLOSEpat.length)) := by
  simp only [update_index_html] at h
  cases hfb : findBlock html with
  | none => rw [hfb] at h; simp at h
  | some se =>
    obtain ⟨s, e⟩ := se
    rw [hfb] at h
    simp only [Prod.mk.injEq, Option.some.injEq] at h
    obtain ⟨hout, -⟩ := h
    obtain ⟨pre, mid, post, hsplit, hpre, hprelen, hpost, hmidlen, heb, hopen, hnone,
      hfirst, hend⟩ := findBlock_decomp html s e hfb
    refine ⟨pre, mid, post, hsplit, ?_, hopen, ?_, hnone, hfirst⟩
    · rw [← hout, hpre, hpost]
    · refine ⟨mid.take (mid.length - CLOSEpat.length), ?_⟩
      nth_rewrite 2 [← hend]
      exact List.take_append_drop _ _

theorem findBlock_none_no_marker (html : List Char) (h : findBlock html = none) :
    ¬ ∃ u v w, html = u ++ OPENpat ++ v ++ CLOSEpat ++ w := by
  rintro ⟨u, v, w, hw⟩
  have hocc : OPENpat <+: html.drop u.length := by
    rw [hw]
    have hsh : u ++ OPENpat ++ v ++ CLOSEpat ++ w
        = u ++ (OPENpat ++ (v ++ (CLOSEpat ++ w))) := by
      simp [List.append_assoc]
    rw [hsh, List.drop_left]
    exact List.prefix_append _ _
  have hsome1 := strFind_isSome OPENpat html u.length hocc
  obtain ⟨s, h1⟩ := Option.isSome_iff_exists.mp hsome1
  have hs : s ≤ u.length := by
    by_contra hlt
    push_neg at hlt
    exact strFind_min _ _ _ _ h1 hlt hocc
  have hocc3 : CLOSEpat <+: html.drop (u.length + OPENpat.length + v.length) := by
    rw [hw]
    have hsh : u ++ OPENpat ++ v ++ CLOSEpat ++ w
        = (u ++ (OPENpat ++ v)) ++ (CLOSEpat ++ w) := by
      simp [List.append_assoc]
    rw [hsh]
    have hlen : u.length + OPENpat.length + v.length = (u ++ (OPENpat ++ v)).length := by
      simp [List.length_append]
      omega
    rw [hlen, List.drop_left]
    exact List.prefix_append _ _
  have hocc2 : CLOSEpat <+: (html.drop (s + OPENpat.length)).drop
      (u.length + OPENpat.length + v.length - (s + OPENpat.length)) := by
    rw [List.drop_drop]
    have harith : s + OPENpat.length
        + (u.length + OPENpat.length + v.length - (s + OPENpat.length))
        = u.length + OPENpat.length + v.length := by omega
    rw [harith]
    exact hocc3
  have hsome2 := strFind_isSome CLOSEpat (html.drop (s + OPENpat.length)) _ hocc2
  obtain ⟨d2, h2⟩ := Option.isSome_iff_exists.mp hsome2
  have : findBlock html = some (s, s + OPENpat.length + d2 + CLOSEpat.length) :=
    (findBlock_eq_some html s _).mpr ⟨h1, d2, h2, rfl⟩
  rw [h] at this
  cases this

/-- Model of the tail of `main` in `src/scripts/fetch_prices.py` (lines
147-155): `prices.json` is written from the in-memory result first, then
`update_index_html` runs on `index.html`.  The written JSON document is
returned unchanged in the first component whatever the publisher step does. -/
def writeOutputs {α : Type} (jsonDoc : α) (stocks : List (String × RenderEntry))
    (htmlFile : Option (List Char)) : α × (Option (List Char) × Bool) :=
  (jsonDoc, update_index_html stocks htmlFile)

/-- C8: when the PRICES block pattern does not match, the Publisher is a no-op
for the document: `index.html` is not written at all (in particular nothing is
appended), a warning is signalled, the JSON artifact is still written, and
indeed no opening-marker/closing-marker pair exists anywhere in the
document. -/
theorem publisher_no_block {α : Type} (jsonDoc : α)
    (stocks : List (String × RenderEntry)) (html : List Char)
    (h : findBlock html = none) :
    update_index_html stocks (some html) = (none, true) ∧
    writeOutputs jsonDoc stocks (some html) = (jsonDoc, (none, true)) ∧
    ¬ ∃ u v w, html = u ++ OPENpat ++ v ++ CLOSEpat ++ w := by
  refine ⟨?_, ?_, findBlock_none_no_marker html h⟩
  · simp [update_index_html, h]
  · simp [writeOutputs, update_index_html, h]

/-- C9: when `index.html` itself is missing, `update_index_html` catches the
condition (line 70's `FileNotFoundError` handler), emits a warning and writes
nothing, and the JSON artifact — written before the publisher step — is
unaffected by the publisher's outcome for any state of the HTML file. -/
theorem publisher_missing_file {α : Type} (jsonDoc : α)
    (stocks : List (String × RenderEntry)) :
    update_index_html stocks none = (none, true) ∧
    writeOutputs jsonDoc stocks none = (jsonDoc, (none, true)) ∧
    ∀ htmlFile, (writeOutputs jsonDoc stocks htmlFile).1 = jsonDoc :=
  ⟨rfl, rfl, fun _ => rfl⟩

set_option maxRecDepth 10000

/-- A well-behaved concrete stocks mapping (one ticker, newline-free fields),
as produced from the program's own data. -/
def stocksOK : List (String × RenderEntry) :=
  [("HOOD", ⟨"115.48", "119.2", "USD", "\x7b\x7d"⟩)]

/-- A concrete document holding a PRICES block between hand-authored bytes. -/
def htmlOK : List Char :=
  "<p>\nconst PRICES = \x7b\nold\n\x7d;\n</p>".toList

/-- The document `htmlOK` after one regeneration from `stocksOK`. -/
def outOK : List Char := "<p>\n".toList ++ renderBlock stocksOK ++ "\n</p>".toList

theorem publisher_idempotent_witness :
    ('\\' ∉ renderBlock stocksOK) ∧
    (strFind CLOSEpat ((renderBlock stocksOK).drop OPENpat.length)
      = some ((renderBlock stocksOK).length - (OPENpat.length + CLOSEpat.length))) ∧
    update_index_html_re stocksOK (some htmlOK) = some (some outOK, false) ∧
    update_index_html_re stocksOK (some outOK) = some (some outOK, false) :=
  ⟨by decide, by decide, by decide,
    publisher_idempotent stocksOK htmlOK outOK (by decide) (by decide) (by decide)⟩

/-- An adversarial stocks mapping whose ticker text contains the closing
marker `\n};`, so the regenerated block contains the closing marker strictly
before its end. -/
def stocksBad : List (String × RenderEntry) :=
  [("A\n\x7d;B", ⟨"1", "1", "USD", "\x7b\x7d"⟩)]

/-- The document `htmlOK` after one regeneration from `stocksBad`. -/
def cexOut1 : List Char := "<p>\n".toList ++ renderBlock stocksBad ++ "\n</p>".toList

/-- A stocks mapping whose ticker text contains the template group reference
`\g<0>`: `re.sub` expands it to the entire old matched span. -/
def stocksG : List (String × RenderEntry) :=
  [("X\\g<0>Y", ⟨"1", "1", "USD", "\x7b\x7d"⟩)]

/-- The document `htmlOK` after one regeneration from `stocksG` (the
expansion of `\g<0>` embeds the old block, closing marker included). -/
def cexOutG : List Char :=
  (((update_index_html_re stocksG (some htmlOK)).getD (none, true)).1).getD []

/-- C1 counterexample: the Publisher is not idempotent for every stocks
mapping.  With `stocksBad` (a ticker holding an interior `\n};`) the second
application matches up to that embedded closing marker and splices a
different document; with `stocksG` (a ticker holding `\g<0>`) the first
application re-embeds the whole old match — closing marker included — even
though the rendered block still ends, and first closes, with the final
`\n};`, so the second application also diverges.  The `stocksG` conjuncts
show why the amendment must also exclude backslashes. -/
theorem publisher_idempotent_cex :
    update_index_html_re stocksBad (some htmlOK) = some (some cexOut1, false) ∧
    update_index_html_re stocksBad (some cexOut1) ≠ some (some cexOut1, false) ∧
    (strFind CLOSEpat ((renderBlock stocksG).drop OPENpat.length)
      = some ((renderBlock stocksG).length - (OPENpat.length + CLOSEpat.length))) ∧
    update_index_html_re stocksG (some htmlOK) = some (some cexOutG, false) ∧
    update_index_html_re stocksG (some cexOutG) ≠ some (some cexOutG, false) := by
  refine ⟨by decide, by decide, by decide, by decide, by decide⟩

theorem publisher_localized_witness :
    update_index_html stocksOK (some htmlOK) = (some outOK, false) ∧
    (∃ pre mid post,
      htmlOK = pre ++ mid ++ post ∧
      outOK = pre ++ renderBlock stocksOK ++ post ∧
      OPENpat <+: mid ∧ CLOSEpat <:+ mid ∧
      strFind OPENpat pre = none ∧
      strFind CLOSEpat (mid.drop OPENpat.length)
        = some (mid.length - (OPENpat.length + CLOSEpat.length))) :=
  ⟨by decide, publisher_localized stocksOK htmlOK outOK (by decide)⟩

/-- A concrete document without the opening marker. -/
def htmlNoBlock : List Char := "<p>no prices here</p>".toList

theorem publisher_no_block_witness :
    findBlock htmlNoBlock = none ∧
    (update_index_html stocksOK (some htmlNoBlock) = (none, true) ∧
      writeOutputs (42 : Nat) stocksOK (some htmlNoBlock) = (42, (none, true)) ∧
      ¬ ∃ u v w, htmlNoBlock = u ++ OPENpat ++ v ++ CLOSEpat ++ w) :=
  ⟨by decide, publisher_no_block 42 stocksOK htmlNoBlock (by decide)⟩

/-! ## The fetch-merge pipeline -/

/-- Minimal JSON value model for snapshot entries and provider payloads.
Numeric leaves are exact rationals: the decimal values the program computes
with stay on the hundredth grid via `round(x, 2)`, and `float()` applied to
the provider's quoted decimal string is modelled as the rational the string
denotes. -/
inductive Json where
  | null
  | bool (b : Bool)
  | num (q : ℚ)
  | str (s : String)
  | arr (elems : List Json)
  | obj (fields : List (String × Json))

abbrev Dict := List (String × Json)

/-- Lookup in a Python dict modelled as an insertion-ordered association
list. -/
def dictGet {α : Type} (k : String) : List (String × α) → Option α
  | [] => none
  | (k2, v) :: rest => if k2 = k then some v else dictGet k rest

/-- Python dict assignment `d[k] = v`: replaces the value in place when the
key exists, else appends at the end (insertion order). -/
def dictInsert {α : Type} (k : String) (v : α) : List (String × α) → List (String × α)
  | [] => [(k, v)]
  | (k2, v2) :: rest => if k2 = k then (k2, v) :: rest else (k2, v2) :: dictInsert k v rest

def dictKeys {α : Type} (d : List (String × α)) : List String := d.map Prod.fst

def objGet (j : Json) (k : String) : Option Json :=
  match j with
  | .obj fields => dictGet k fields
  | _ => none

/-- Python string `<` (lexicographic by code point) on character lists. -/
def lexLt : List Char → List Char → Bool
  | [], [] => false
  | [], _ :: _ => true
  | _ :: _, [] => false
  | a :: as, b :: bs =>
    if a.toNat < b.toNat then true
    else if b.toNat < a.toNat then false
    else lexLt as bs

def strLt (a b : String) : Bool := lexLt a.toList b.toList

def strLe (a b : String) : Bool := !(strLt b a)

/-- Python `max(k :: ks)` for strings: keep the current maximum, replace it
only by a strictly greater element. -/
def pyMax (k : String) (ks : List String) : String :=
  ks.foldl (fun m x => if strLt m x then x else m) k

/-- Floor of a rational as an integer (`fdiv` is floor division and the
denominator is positive). -/
def ratFloor (q : ℚ) : ℤ := Int.fdiv q.num q.den

/-- Python `round` to an integer: nearest, ties to even. -/
def pyRoundInt (x : ℚ) : ℤ :=
  let f := ratFloor x
  let r := x - (f : ℚ)
  if r < 1/2 then f
  else if 1/2 < r then f + 1
  else if f % 2 = 0 then f else f + 1

/-- Python `round(x, 2)` on the exact decimal values this program computes
with. -/
def round2 (x : ℚ) : ℚ := (pyRoundInt (x * 100) : ℚ) / 100

structure Instrument where
  ticker : String
  av_symbol : String
  p0 : ℚ
  currency : String
deriving DecidableEq

/-- The STOCKS table (same tickers, provider symbols, baselines and currencies
in both variants; the standalone variant adds a free-text note on DFEN, not
modelled). -/
def STOCKS : List Instrument :=
  [⟨"HOOD", "HOOD", 115.48, "USD"⟩,
   ⟨"TTD",  "TTD",  38.19,  "USD"⟩,
   ⟨"GMAB", "GMAB", 31.18,  "USD"⟩,
   ⟨"XXI",  "XXI",  8.85,   "USD"⟩,
   ⟨"FOUR", "FOUR", 63.31,  "USD"⟩,
   ⟨"DFEN", "DFEN", 52.49,  "EUR"⟩]

def START_DATE : String := "2026-01-02"

/-- Insertion into a key-sorted list under Python string `<`. -/
def insertByKey (e : String × ℚ) : List (String × ℚ) → List (String × ℚ)
  | [] => [e]
  | f :: rest => if strLt e.1 f.1 then e :: f :: rest else f :: insertByKey e rest

/-- `sorted(ts.items())`: Python sorts the key/value pairs by key (dict keys
are unique, so the comparison never reaches the values and stability is
immaterial). -/
def sortByKey : List (String × ℚ) → List (String × ℚ)
  | [] => []
  | e :: rest => insertByKey e (sortByKey rest)

/-- The `daily` dict building loop (scripts lines 127-130, standalone lines
131-136): iterate the fetched series in sorted key order, keep dates on or
after the boundary, round closes to 2 decimals.  `ts` models the provider's
time-series dict with the `"4. close"` field already extracted to a
rational. -/
def buildDaily (start : String) (ts : List (String × ℚ)) : List (String × ℚ) :=
  (sortByKey ts).foldl
    (fun daily e => if strLe start e.1 then dictInsert e.1 (round2 e.2) daily else daily) []

/-- The fresh-data branch of the per-instrument loop (scripts lines 132-145):
latest price is the value at the maximum date of the filtered series, YTD is
`round((latest - p0) / p0 * 100, 2)`; an empty filtered series falls back to
the baseline with a zero YTD and no error marker.  The `dictGet` default is
never reached: the maximum date is a key of `daily`. -/
def freshResult (inst : Instrument) (daily : List (String × ℚ)) : Json :=
  match dictKeys daily with
  | [] =>
    Json.obj [("p0", .num inst.p0), ("p1", .num inst.p0), ("ytd", .num 0),
      ("currency", .str inst.currency),
      ("daily", .obj (daily.map fun e => (e.1, Json.num e.2)))]
  | k :: ks =>
    let latest_date := pyMax k ks
    let latest_price := (dictGet latest_date daily).getD 0
    let ytd := round2 ((latest_price - inst.p0) / inst.p0 * 100)
    Json.obj [("p0", .num inst.p0), ("p1", .num latest_price), ("ytd", .num ytd),
      ("currency", .str inst.currency),
      ("daily", .obj (daily.map fun e => (e.1, Json.num e.2)))]

/-- The no-data placeholder of `src/scripts/fetch_prices.py` (lines
121-124). -/
def placeholderScripts (inst : Instrument) : Json :=
  .obj [("p0", .num inst.p0), ("p1", .num inst.p0),
    ("currency", .str inst.currency), ("daily", .obj []),
    ("error", .str "No data available")]

/-- The no-data placeholder of the standalone `src/fetch_prices.py` (lines
123-128): it carries no `p1` and no `ytd` key. -/
def placeholderRoot (inst : Instrument) : Json :=
  .obj [("p0", .num inst.p0), ("currency", .str inst.currency),
    ("daily", .obj []), ("error", .str "No data available")]

/-- One iteration of the per-instrument loop: `fetched` is the Provider
Client's normalized outcome (`none` models Absent — any fetch failure),
`existingStocks` the prior snapshot's `stocks` dict (`none` when no prior
snapshot loads). -/
def resolveWith (placeholder : Instrument → Json) (start : String) (inst : Instrument)
    (fetched : Option (List (String × ℚ))) (existingStocks : Option Dict) : Json :=
  match fetched with
  | some ts => freshResult inst (buildDaily start ts)
  | none =>
    match existingStocks with
    | some es =>
      match dictGet inst.ticker es with
      | some cached => cached
      | none => placeholder inst
    | none => placeholder inst

def resolveScripts : String → Instrument → Option (List (String × ℚ)) → Option Dict → Json :=
  resolveWith placeholderScripts

def resolveRoot : String → Instrument → Option (List (String × ℚ)) → Option Dict → Json :=
  resolveWith placeholderRoot

/-- The orchestrating loop's `result["stocks"]` dict: one resolution and one
dict assignment `result["stocks"][ticker] = ...` per configured instrument, in
configuration order.  `cfg` pairs each instrument with its per-run fetch
outcome. -/
def runStocks (resolve : Instrument → Option (List (String × ℚ)) → Option Dict → Json)
    (cfg : List (Instrument × Option (List (String × ℚ))))
    (existingStocks : Option Dict) : Dict :=
  cfg.foldl (fun acc p => dictInsert p.1.ticker (resolve p.1 p.2 existingStocks) acc) []

inductive Event where
  | call
  | sleep
deriving DecidableEq

/-- The fetch/sleep schedule of `src/scripts/fetch_prices.py` (lines 107-114):
one provider call per instrument, and `time.sleep(13)` only when
`i < len(STOCKS) - 1`. -/
def scriptsEvents (n : Nat) : List Event :=
  (List.range n).flatMap fun i =>
    Event.call :: (if i < n - 1 then [Event.sleep] else [])

/-- The fetch/sleep schedule of the standalone `src/fetch_prices.py` (lines
113-114): `time.sleep(12)` runs unconditionally after every fetch, including
the last. -/
def rootEvents (n : Nat) : List Event :=
  (List.range n).flatMap fun _ => [Event.call, Event.sleep]

/-- Extraction step of `fetch_fx_rate` (standalone variant, line 79):
`float(data["Realtime Currency Exchange Rate"]["5. Exchange Rate"])`.
`none` models every raising path — missing keys, non-object shapes, or a
value `float()` cannot parse. -/
def extractRate (data : Json) : Option ℚ :=
  match objGet data "Realtime Currency Exchange Rate" with
  | some inner =>
    match objGet inner "5. Exchange Rate" with
    | some (.num q) => some q
    | _ => none
  | none => none

/-- `fetch_fx_rate` of the standalone `src/fetch_prices.py` (lines 68-84):
`resp` is `none` when the HTTP request, the read or the JSON parse raises;
any extraction failure also lands in the `except` handler.  Both failure
paths return the fixed fallback 1.05. -/
def fetch_fx_rate (resp : Option Json) : ℚ :=
  match resp with
  | none => 1.05
  | some data =>
    match extractRate data with
    | some rate => rate
    | none => 1.05

theorem dictGet_dictInsert_self {α : Type} (k : String) (v : α) :
    ∀ d : List (String × α), dictGet k (dictInsert k v d) = some v := by
  intro d
  induction d with
  | nil => simp [dictInsert, dictGet]
  | cons e rest ih =>
    obtain ⟨k2, v2⟩ := e
    by_cases hk : k2 = k
    · simp [dictInsert, dictGet, hk]
    · simp [dictInsert, dictGet, hk, ih]

theorem dictGet_dictInsert_other {α : Type} (k k2 : String) (v : α) (hk : k2 ≠ k) :
    ∀ d : List (String × α), dictGet k (dictInsert k2 v d) = dictGet k d := by
  intro d
  induction d with
  | nil => simp [dictInsert, dictGet, hk]
  | cons e rest ih =>
    obtain ⟨k3, v3⟩ := e
    by_cases h3 : k3 = k2
    · subst h3
      simp [dictInsert, dictGet, hk]
    · simp only [dictInsert, if_neg h3, dictGet]
      by_cases h4 : k3 = k
      · simp [h4]
      · simp [h4, ih]

theorem mem_dictKeys_insert {α : Type} (t k : String) (v : α) :
    ∀ d : List (String × α),
      (t ∈ dictKeys (dictInsert k v d) ↔ t = k ∨ t ∈ dictKeys d) := by
  intro d
  induction d with
  | nil => simp [dictInsert, dictKeys, eq_comm]
  | cons e rest ih =>
    obtain ⟨k2, v2⟩ := e
    by_cases hk : k2 = k
    · have hred : dictInsert k v ((k2, v2) :: rest) = (k2, v) :: rest := by
        simp [dictInsert, hk]
      rw [hred]
      simp only [dictKeys, List.map_cons, List.mem_cons, hk]
      tauto
    · simp only [dictInsert, if_neg hk, dictKeys, List.map_cons, List.mem_cons]
      rw [show (List.map Prod.fst (dictInsert k v rest)) = dictKeys (dictInsert k v rest) from rfl]
      rw [ih]
      simp [dictKeys]
      tauto

theorem nodup_dictKeys_insert {α : Type} (k : String) (v : α) :
    ∀ d : List (String × α), (dictKeys d).Nodup → (dictKeys (dictInsert k v d)).Nodup := by
  intro d
  induction d with
  | nil =>
    intro _
    simp [dictInsert, dictKeys]
  | cons e rest ih =>
    obtain ⟨k2, v2⟩ := e
    intro hnd
    simp only [dictKeys, List.map_cons, List.nodup_cons] at hnd
    obtain ⟨hk2, hrest⟩ := hnd
    by_cases hk : k2 = k
    · have hred : dictInsert k v ((k2, v2) :: rest) = (k2, v) :: rest := by
        simp [dictInsert, hk]
      rw [hred]
      simp only [dictKeys, List.map_cons, List.nodup_cons]
      exact ⟨hk2, hrest⟩
    · simp only [dictInsert, if_neg hk, dictKeys, List.map_cons, List.nodup_cons]
      constructor
      · rw [show (List.map Prod.fst (dictInsert k v rest)) = dictKeys (dictInsert k v rest) from rfl]
        rw [mem_dictKeys_insert]
        rintro (h | h)
        · exact hk h
        · exact hk2 h
      · exact ih hrest

theorem dictGet_isSome_of_mem {α : Type} (t : String) :
    ∀ d : List (String × α), t ∈ dictKeys d → ∃ v, dictGet t d = some v := by
  intro d
  induction d with
  | nil => simp [dictKeys]
  | cons e rest ih =>
    obtain ⟨k2, v2⟩ := e
    intro hmem
    by_cases hk : k2 = t
    · exact ⟨v2, by simp [dictGet, hk]⟩
    · simp only [dictKeys, List.map_cons, List.mem_cons] at hmem
      rcases hmem with h | h
      · exact absurd h.symm hk
      · simpa [dictGet, hk] using ih h

theorem runStocks_go_mem
    (resolve : Instrument → Option (List (String × ℚ)) → Option Dict → Json)
    (ex : Option Dict) :
    ∀ (cfg : List (Instrument × Option (List (String × ℚ)))) (acc : Dict) (t : String),
      (t ∈ dictKeys (cfg.foldl
          (fun acc p => dictInsert p.1.ticker (resolve p.1 p.2 ex) acc) acc)
        ↔ t ∈ dictKeys acc ∨ t ∈ cfg.map fun p => p.1.ticker) := by
  intro cfg
  induction cfg with
  | nil => simp
  | cons p rest ih =>
    intro acc t
    simp only [List.foldl_cons, List.map_cons, List.mem_cons]
    rw [ih, mem_dictKeys_insert]
    tauto

theorem runStocks_go_nodup
    (resolve : Instrument → Option (List (String × ℚ)) → Option Dict → Json)
    (ex : Option Dict) :
    ∀ (cfg : List (Instrument × Option (List (String × ℚ)))) (acc : Dict),
      (dictKeys acc).Nodup →
      (dictKeys (cfg.foldl
        (fun acc p => dictInsert p.1.ticker (resolve p.1 p.2 ex) acc) acc)).Nodup := by
  intro cfg
  induction cfg with
  | nil => intro acc h; simpa using h
  | cons p rest ih =>
    intro acc h
    simp only [List.foldl_cons]
    exact ih _ (nodup_dictKeys_insert _ _ _ h)

theorem runStocks_go_lookup
    (resolve : Instrument → Option (List (String × ℚ)) → Option Dict → Json)
    (ex : Option Dict) (t : String) :
    ∀ (cfg : List (Instrument × Option (List (String × ℚ)))) (acc : Dict),
      t ∉ (cfg.map fun p => p.1.ticker) →
      dictGet t (cfg.foldl
        (fun acc p => dictInsert p.1.ticker (resolve p.1 p.2 ex) acc) acc) = dictGet t acc := by
  intro cfg
  induction cfg with
  | nil => intro acc _; rfl
  | cons p rest ih =>
    intro acc hnot
    simp only [List.map_cons, List.mem_cons, not_or] at hnot
    obtain ⟨h1, h2⟩ := hnot
    simp only [List.foldl_cons]
    rw [ih _ h2, dictGet_dictInsert_other _ _ _ (fun h => h1 h.symm)]

theorem runStocks_lookup
    (resolve : Instrument → Option (List (String × ℚ)) → Option Dict → Json)
    (cfg : List (Instrument × Option (List (String × ℚ))))
    (ex : Option Dict) (inst : Instrument) (o : Option (List (String × ℚ)))
    (hmem : (inst, o) ∈ cfg)
    (hnodup : (cfg.map fun p => p.1.ticker).Nodup) :
    dictGet inst.ticker (runStocks resolve cfg ex) = some (resolve inst o ex) := by
  obtain ⟨l1, l2, rfl⟩ := List.append_of_mem hmem
  have hnot : inst.ticker ∉ l2.map fun p => p.1.ticker := by
    have hsub : List.Sublist (((inst, o) :: l2).map fun p => p.1.ticker)
        ((l1 ++ (inst, o) :: l2).map fun p => p.1.ticker) := by
      rw [List.map_append]
      exact List.sublist_append_right _ _
    have hnd2 := hnodup.sublist hsub
    simp only [List.map_cons, List.nodup_cons] at hnd2
    exact hnd2.1
  unfold runStocks
  rw [List.foldl_append]
  simp only [List.foldl_cons]
  rw [runStocks_go_lookup resolve ex inst.ticker l2 _ hnot]
  exact dictGet_dictInsert_self _ _ _

/-- C3: for every configuration and every combination of per-instrument fetch
outcomes and prior-snapshot states, the run's `stocks` dict has pairwise
distinct keys and holds a key exactly for the configured tickers — one
`InstrumentResult` per configured ticker, none missing, none duplicated.
Stated for both variants of the script. -/
theorem snapshot_cardinality
    (cfg : List (Instrument × Option (List (String × ℚ))))
    (ex : Option Dict) :
    ((dictKeys (runStocks (resolveScripts START_DATE) cfg ex)).Nodup ∧
      ∀ t, t ∈ dictKeys (runStocks (resolveScripts START_DATE) cfg ex)
        ↔ t ∈ cfg.map fun p => p.1.ticker) ∧
    ((dictKeys (runStocks (resolveRoot START_DATE) cfg ex)).Nodup ∧
      ∀ t, t ∈ dictKeys (runStocks (resolveRoot START_DATE) cfg ex)
        ↔ t ∈ cfg.map fun p => p.1.ticker) := by
  refine ⟨⟨?_, ?_⟩, ⟨?_, ?_⟩⟩
  · exact runStocks_go_nodup _ ex cfg [] (by simp [dictKeys])
  · intro t
    rw [show runStocks (resolveScripts START_DATE) cfg ex = cfg.foldl
      (fun acc p => dictInsert p.1.ticker (resolveScripts START_DATE p.1 p.2 ex) acc) [] from rfl]
    rw [runStocks_go_mem]
    simp [dictKeys]
  · exact runStocks_go_nodup _ ex cfg [] (by simp [dictKeys])
  · intro t
    rw [show runStocks (resolveRoot START_DATE) cfg ex = cfg.foldl
      (fun acc p => dictInsert p.1.ticker (resolveRoot START_DATE p.1 p.2 ex) acc) [] from rfl]
    rw [runStocks_go_mem]
    simp [dictKeys]

/-- C6: when an instrument's fetch outcome is Absent and the prior snapshot's
`stocks` dict has an entry under its ticker, the run's `stocks` dict maps that
ticker to exactly that cached entry, whatever JSON shape it has (the code
copies the object reference verbatim).  Holds for both variants. -/
theorem fallback_verbatim
    (cfg : List (Instrument × Option (List (String × ℚ))))
    (es : Dict) (inst : Instrument) (v : Json)
    (hmem : (inst, (none : Option (List (String × ℚ)))) ∈ cfg)
    (hnodup : (cfg.map fun p => p.1.ticker).Nodup)
    (hcache : dictGet inst.ticker es = some v) :
    dictGet inst.ticker (runStocks (resolveScripts START_DATE) cfg (some es)) = some v ∧
    dictGet inst.ticker (runStocks (resolveRoot START_DATE) cfg (some es)) = some v := by
  constructor
  · rw [runStocks_lookup _ cfg (some es) inst none hmem hnodup]
    simp [resolveScripts, resolveWith, hcache]
  · rw [runStocks_lookup _ cfg (some es) inst none hmem hnodup]
    simp [resolveRoot, resolveWith, hcache]

def instHOOD : Instrument := ⟨"HOOD", "HOOD", 115.48, "USD"⟩

theorem fallback_verbatim_witness :
    ((instHOOD, (none : Option (List (String × ℚ))))
        ∈ [(instHOOD, (none : Option (List (String × ℚ))))]) ∧
    dictGet "HOOD" [("HOOD", Json.str "cached-entry")] = some (Json.str "cached-entry") ∧
    dictGet "HOOD" (runStocks (resolveScripts START_DATE)
        [(instHOOD, none)] (some [("HOOD", Json.str "cached-entry")]))
      = some (Json.str "cached-entry") ∧
    dictGet "HOOD" (runStocks (resolveRoot START_DATE)
        [(instHOOD, none)] (some [("HOOD", Json.str "cached-entry")]))
      = some (Json.str "cached-entry") :=
  ⟨List.Mem.head _, by rfl,
    (fallback_verbatim [(instHOOD, none)] [("HOOD", Json.str "cached-entry")]
      instHOOD (Json.str "cached-entry") (List.Mem.head _) (by simp) (by rfl)).1,
    (fallback_verbatim [(instHOOD, none)] [("HOOD", Json.str "cached-entry")]
      instHOOD (Json.str "cached-entry") (List.Mem.head _) (by simp) (by rfl)).2⟩

/-- C5 (amended): in `src/scripts/fetch_prices.py`, an Absent fetch with no
cached entry yields the placeholder with latest price `p1` equal to the
baseline, an empty daily dict and the non-empty error string
`No data available`.  (The standalone variant's placeholder omits the latest
price entirely — see the counterexample.) -/
theorem placeholder_fields
    (cfg : List (Instrument × Option (List (String × ℚ))))
    (ex : Option Dict) (inst : Instrument)
    (hmem : (inst, (none : Option (List (String × ℚ)))) ∈ cfg)
    (hnodup : (cfg.map fun p => p.1.ticker).Nodup)
    (hmiss : ∀ es, ex = some es → dictGet inst.ticker es = none) :
    dictGet inst.ticker (runStocks (resolveScripts START_DATE) cfg ex)
      = some (placeholderScripts inst) ∧
    objGet (placeholderScripts inst) "p1" = some (.num inst.p0) ∧
    objGet (placeholderScripts inst) "daily" = some (.obj []) ∧
    objGet (placeholderScripts inst) "error" = some (.str "No data available") ∧
    "No data available" ≠ "" := by
  refine ⟨?_, by rfl, by rfl, by rfl, by decide⟩
  rw [runStocks_lookup _ cfg ex inst none hmem hnodup]
  cases hex : ex with
  | none => rfl
  | some es =>
    have h := hmiss es hex
    simp [resolveScripts, resolveWith, h]

theorem placeholder_fields_witness :
    ((instHOOD, (none : Option (List (String × ℚ))))
        ∈ [(instHOOD, (none : Option (List (String × ℚ))))]) ∧
    dictGet "HOOD" (runStocks (resolveScripts START_DATE) [(instHOOD, none)] none)
      = some (placeholderScripts instHOOD) ∧
    objGet (placeholderScripts instHOOD) "p1" = some (.num instHOOD.p0) ∧
    objGet (placeholderScripts instHOOD) "daily" = some (.obj []) ∧
    objGet (placeholderScripts instHOOD) "error" = some (.str "No data available") :=
  ⟨List.Mem.head _,
    (placeholder_fields [(instHOOD, none)] none instHOOD (List.Mem.head _) (by simp)
      (fun es h => by cases h)).1,
    (placeholder_fields [(instHOOD, none)] none instHOOD (List.Mem.head _) (by simp)
      (fun es h => by cases h)).2.1,
    (placeholder_fields [(instHOOD, none)] none instHOOD (List.Mem.head _) (by simp)
      (fun es h => by cases h)).2.2.1,
    (placeholder_fields [(instHOOD, none)] none instHOOD (List.Mem.head _) (by simp)
      (fun es h => by cases h)).2.2.2.1⟩

/-- C5 counterexample: in the standalone `src/fetch_prices.py`, the
placeholder emitted for an Absent fetch with no cache has no `p1` key at all
(and no `ytd` key), so its latest price is not equal to the baseline price —
the record simply lacks a latest price. -/
theorem placeholder_root_cex :
    dictGet "HOOD" (runStocks (resolveRoot START_DATE) [(instHOOD, none)] none)
      = some (placeholderRoot instHOOD) ∧
    objGet (placeholderRoot instHOOD) "p1" = none ∧
    objGet (placeholderRoot instHOOD) "ytd" = none ∧
    objGet (placeholderScripts instHOOD) "p1" = some (.num instHOOD.p0) :=
  ⟨by rfl, by rfl, by rfl, by rfl⟩

theorem lexLt_irrefl : ∀ l : List Char, lexLt l l = false := by
  intro l
  induction l with
  | nil => rfl
  | cons a as ih => simp [lexLt, ih]

theorem lexLt_trans : ∀ a b c : List Char,
    lexLt a b = true → lexLt b c = true → lexLt a c = true := by
  intro a
  induction a with
  | nil =>
    intro b c hab hbc
    cases b with
    | nil => cases hab
    | cons y ys =>
      cases c with
      | nil => simp [lexLt] at hbc
      | cons z zs => rfl
  | cons x xs ih =>
    intro b c hab hbc
    cases b with
    | nil => simp [lexLt] at hab
    | cons y ys =>
      cases c with
      | nil => simp [lexLt] at hbc
      | cons z zs =>
        simp only [lexLt] at hab hbc ⊢
        by_cases h1 : x.toNat < y.toNat
        · by_cases h2 : y.toNat < z.toNat
          · have hxz : x.toNat < z.toNat := by omega
            simp [hxz]
          · rw [if_neg h2] at hbc
            by_cases h3 : z.toNat < y.toNat
            · rw [if_pos h3] at hbc; cases hbc
            · have hxz : x.toNat < z.toNat := by omega
              simp [hxz]
        · rw [if_neg h1] at hab
          by_cases h1b : y.toNat < x.toNat
          · rw [if_pos h1b] at hab; cases hab
          · rw [if_neg h1b] at hab
            by_cases h2 : y.toNat < z.toNat
            · have hxz : x.toNat < z.toNat := by omega
              simp [hxz]
            · rw [if_neg h2] at hbc
              by_cases h3 : z.toNat < y.toNat
              · rw [if_pos h3] at hbc; cases hbc
              · rw [if_neg h3] at hbc
                have hx : ¬ x.toNat < z.toNat := by omega
                have hz : ¬ z.toNat < x.toNat := by omega
                rw [if_neg hx, if_neg hz]
                exact ih ys zs hab hbc

theorem strLt_trans (a b c : String) (h1 : strLt a b = true) (h2 : strLt b c = true) :
    strLt a c = true :=
  lexLt_trans _ _ _ h1 h2

theorem strLt_irrefl (a : String) : strLt a a = false := lexLt_irrefl _

theorem strLe_refl (a : String) : strLe a a = true := by
  simp [strLe, strLt, lexLt_irrefl]

theorem strLe_of_lt (a b : String) (h : strLt a b = true) : strLe a b = true := by
  unfold strLe
  cases hba : strLt b a
  · rfl
  · have := strLt_trans a b a h hba
    rw [strLt_irrefl] at this
    cases this

theorem strLe_lt_trans (x m k : String) (h1 : strLe x m = true) (h2 : strLt m k = true) :
    strLe x k = true := by
  unfold strLe at h1 ⊢
  cases hkx : strLt k x
  · rfl
  · have := strLt_trans m k x h2 hkx
    rw [this] at h1
    cases h1

theorem pyMax_preserve : ∀ (ys : List String) (m x : String),
    strLe x m = true → strLe x (pyMax m ys) = true := by
  intro ys
  induction ys with
  | nil => intro m x h; exact h
  | cons y ys ih =>
    intro m x h
    rw [show pyMax m (y :: ys) = pyMax (if strLt m y then y else m) ys from rfl]
    apply ih
    by_cases hlt : strLt m y = true
    · rw [if_pos hlt]
      exact strLe_lt_trans x m y h hlt
    · rw [if_neg hlt]
      exact h

theorem pyMax_ge : ∀ (ks : List String) (k x : String),
    x ∈ k :: ks → strLe x (pyMax k ks) = true := by
  intro ks
  induction ks with
  | nil =>
    intro k x hx
    have hx2 : x = k := by simpa using hx
    rw [hx2]
    exact strLe_refl k
  | cons y ys ih =>
    intro k x hx
    rw [show pyMax k (y :: ys) = pyMax (if strLt k y then y else k) ys from rfl]
    rcases List.mem_cons.mp hx with rfl | hx2
    · apply pyMax_preserve
      by_cases hlt : strLt x y = true
      · rw [if_pos hlt]
        exact strLe_of_lt x y hlt
      · rw [if_neg hlt]
        exact strLe_refl x
    · rcases List.mem_cons.mp hx2 with rfl | hx3
      · apply pyMax_preserve
        by_cases hlt : strLt k x = true
        · rw [if_pos hlt]
          exact strLe_refl x
        · rw [if_neg hlt]
          unfold strLe
          rw [show strLt k x = false from by simpa using hlt]
          rfl
      · exact ih _ x (List.mem_cons.mpr (Or.inr hx3))

theorem pyMax_mem : ∀ (ks : List String) (k : String), pyMax k ks ∈ k :: ks := by
  intro ks
  induction ks with
  | nil => intro k; simp [pyMax]
  | cons y ys ih =>
    intro k
    rw [show pyMax k (y :: ys) = pyMax (if strLt k y then y else k) ys from rfl]
    by_cases hl : strLt k y = true
    · rw [if_pos hl]
      rcases List.mem_cons.mp (ih y) with he | hin
      · rw [he]; simp
      · simp [hin]
    · rw [if_neg hl]
      rcases List.mem_cons.mp (ih k) with he | hin
      · rw [he]; simp
      · simp [hin]

/-- C7: whenever the filtered daily series is non-empty (its key list is
`k :: ks`), the latest price `p1` is the series value at the maximum date —
`max(daily.keys())`, an upper bound of every key — and
`ytd = round((latest - p0) / p0 * 100, 2)`.  Both variants resolve a present
fetch through this computation. -/
theorem metric_computation (inst : Instrument) (ts : List (String × ℚ)) (ex : Option Dict)
    (k : String) (ks : List String)
    (hkeys : dictKeys (buildDaily START_DATE ts) = k :: ks) :
    ∃ latest : ℚ,
      dictGet (pyMax k ks) (buildDaily START_DATE ts) = some latest ∧
      (∀ d ∈ dictKeys (buildDaily START_DATE ts), strLe d (pyMax k ks) = true) ∧
      resolveScripts START_DATE inst (some ts) ex
        = freshResult inst (buildDaily START_DATE ts) ∧
      resolveRoot START_DATE inst (some ts) ex
        = freshResult inst (buildDaily START_DATE ts) ∧
      objGet (freshResult inst (buildDaily START_DATE ts)) "p1" = some (.num latest) ∧
      objGet (freshResult inst (buildDaily START_DATE ts)) "ytd"
        = some (.num (round2 ((latest - inst.p0) / inst.p0 * 100))) := by
  have hmem : pyMax k ks ∈ dictKeys (buildDaily START_DATE ts) := by
    rw [hkeys]
    exact pyMax_mem ks k
  obtain ⟨latest, hget⟩ := dictGet_isSome_of_mem _ _ hmem
  have hfr : freshResult inst (buildDaily START_DATE ts)
      = Json.obj [("p0", .num inst.p0), ("p1", .num latest),
          ("ytd", .num (round2 ((latest - inst.p0) / inst.p0 * 100))),
          ("currency", .str inst.currency),
          ("daily", .obj ((buildDaily START_DATE ts).map fun e => (e.1, Json.num e.2)))] := by
    unfold freshResult
    rw [hkeys]
    simp only [hget, Option.getD_some]
  refine ⟨latest, hget, ?_, rfl, rfl, ?_, ?_⟩
  · intro d hd
    rw [hkeys] at hd
    exact pyMax_ge ks k d hd
  · rw [hfr]
    rfl
  · rw [hfr]
    rfl

/-- The spec's worked metric example: baseline 100.00, series
`{"2026-01-02": 100.00, "2026-01-05": 110.00}`, boundary 2026-01-02. -/
def instEx : Instrument := ⟨"EX", "EX", 100, "USD"⟩

def tsEx : List (String × ℚ) := [("2026-01-02", 100), ("2026-01-05", 110)]

theorem metric_computation_witness :
    dictKeys (buildDaily START_DATE tsEx) = "2026-01-02" :: ["2026-01-05"] ∧
    (∃ latest : ℚ,
      dictGet (pyMax "2026-01-02" ["2026-01-05"]) (buildDaily START_DATE tsEx) = some latest ∧
      (∀ d ∈ dictKeys (buildDaily START_DATE tsEx),
        strLe d (pyMax "2026-01-02" ["2026-01-05"]) = true) ∧
      resolveScripts START_DATE instEx (some tsEx) none
        = freshResult instEx (buildDaily START_DATE tsEx) ∧
      resolveRoot START_DATE instEx (some tsEx) none
        = freshResult instEx (buildDaily START_DATE tsEx) ∧
      objGet (freshResult instEx (buildDaily START_DATE tsEx)) "p1" = some (.num latest) ∧
      objGet (freshResult instEx (buildDaily START_DATE tsEx)) "ytd"
        = some (.num (round2 ((latest - instEx.p0) / instEx.p0 * 100)))) ∧
    objGet (freshResult instEx (buildDaily START_DATE tsEx)) "p1" = some (.num 110) ∧
    objGet (freshResult instEx (buildDaily START_DATE tsEx)) "ytd" = some (.num 10) :=
  ⟨by decide, metric_computation instEx tsEx none "2026-01-02" ["2026-01-05"] (by decide),
    by with_unfolding_all rfl, by with_unfolding_all rfl⟩

theorem scriptsEvents_succ (n : Nat) :
    scriptsEvents (n + 1)
      = Event.call :: ((if 0 < n then [Event.sleep] else []) ++ scriptsEvents n) := by
  unfold scriptsEvents
  rw [List.range_succ_eq_map]
  rw [List.flatMap_cons]
  rw [List.flatMap_map]
  have hfun : ∀ l : List Nat,
      (l.flatMap fun a => Event.call :: if a.succ < n + 1 - 1 then [Event.sleep] else [])
      = l.flatMap fun i => Event.call :: if i < n - 1 then [Event.sleep] else [] := by
    intro l
    induction l with
    | nil => rfl
    | cons x xs ih =>
      rw [List.flatMap_cons, List.flatMap_cons, ih]
      congr 2
      by_cases hc : x < n - 1
      · rw [if_pos (by omega), if_pos hc]
      · rw [if_neg (by omega), if_neg hc]
  rw [hfun]
  have hhead : (if 0 < n + 1 - 1 then [Event.sleep] else [])
      = (if 0 < n then [Event.sleep] else []) := by
    by_cases h : 0 < n
    · rw [if_pos (by omega), if_pos h]
    · rw [if_neg (by omega), if_neg h]
  rw [hhead, List.cons_append]

theorem scriptsEvents_intersperse (n : Nat) :
    scriptsEvents n = List.intersperse Event.sleep (List.replicate n Event.call) := by
  induction n with
  | zero => rfl
  | succ m ih =>
    rw [scriptsEvents_succ, ih]
    cases m with
    | zero => rfl
    | succ m2 =>
      rw [if_pos (by omega)]
      rw [show List.replicate (m2 + 1 + 1) Event.call
        = Event.call :: Event.call :: List.replicate m2 Event.call from rfl]
      rw [List.intersperse_cons_cons]
      rw [show (Event.call :: List.replicate m2 Event.call)
        = List.replicate (m2 + 1) Event.call from rfl]
      rfl

theorem scriptsEvents_count (n : Nat) :
    (scriptsEvents n).count Event.sleep = n - 1 := by
  induction n with
  | zero => rfl
  | succ m ih =>
    rw [scriptsEvents_succ]
    by_cases h : 0 < m
    · rw [if_pos h]
      simp [List.count_cons, List.count_append, ih] <;> omega
    · rw [if_neg h]
      have hm : m = 0 := by omega
      subst hm
      rfl

/-- C4 (amended): in `src/scripts/fetch_prices.py` the schedule is exactly
call, sleep, call, sleep, …, call — one sleep strictly between consecutive
calls, none before the first and none after the last, so `n` configured
instruments incur exactly `n - 1` delays (the 6 configured STOCKS incur 5).
The standalone `src/fetch_prices.py` instead sleeps after every call — see the
counterexample. -/
theorem rate_governor_schedule (n : Nat) :
    scriptsEvents n = List.intersperse Event.sleep (List.replicate n Event.call) ∧
    (scriptsEvents n).count Event.sleep = n - 1 ∧
    (scriptsEvents STOCKS.length).count Event.sleep = 5 :=
  ⟨scriptsEvents_intersperse n, scriptsEvents_count n, scriptsEvents_count STOCKS.length⟩

/-- C4 counterexample: the standalone variant's loop sleeps unconditionally
after every fetch, so its 6 configured instruments incur 6 delays — not 5 —
and the run ends with a trailing sleep after the last call. -/
theorem rate_governor_root_cex :
    STOCKS.length = 6 ∧
    (rootEvents STOCKS.length).count Event.sleep = 6 ∧
    (rootEvents STOCKS.length).count Event.sleep ≠ STOCKS.length - 1 ∧
    (rootEvents STOCKS.length).getLast? = some Event.sleep :=
  ⟨rfl, by decide, by decide, by decide⟩

/-- C10: `fetch_fx_rate` is total at its boundary — every failure path
(transport error, malformed or missing payload) returns the fixed fallback
rate 1.05 without raising, and on a payload carrying a numeric
`Realtime Currency Exchange Rate / 5. Exchange Rate` field it returns exactly
that quoted EUR/USD rate. -/
theorem fx_rate_total (j : Json) (q : ℚ) :
    fetch_fx_rate none = 1.05 ∧
    (extractRate j = none → fetch_fx_rate (some j) = 1.05) ∧
    (extractRate j = some q → fetch_fx_rate (some j) = q) := by
  refine ⟨rfl, ?_, ?_⟩
  · intro h
    simp [fetch_fx_rate, h]
  · intro h
    simp [fetch_fx_rate, h]

def fxPayload : Json :=
  .obj [("Realtime Currency Exchange Rate",
    .obj [("5. Exchange Rate", .num (108/100))])]

theorem fx_rate_total_witness :
    extractRate (Json.obj []) = none ∧
    fetch_fx_rate (some (Json.obj [])) = 1.05 ∧
    extractRate fxPayload = some (108/100) ∧
    fetch_fx_rate (some fxPayload) = 108/100 :=
  ⟨rfl, (fx_rate_total (Json.obj []) 0).2.1 rfl,
    rfl, (fx_rate_total fxPayload (108/100)).2.2 rfl⟩
